import Mathlib

/-!
Verification of the `get_dir_hash` crate (src/lib.rs) against its
natural-language specification, via a shallow embedding.

Modelling conventions:
* Strings are lists of Unicode scalar values (`List Nat`); on the ASCII range
  (the range exercised by every claim) these coincide with the UTF-8 bytes
  that `str::as_bytes` feeds to the hashers.
* The blake3 hashers are modelled as the exact byte sequence fed to them
  (the ideal, collision-free reading of a cryptographic hash): a hasher state
  is the list of items fed so far, `finalize` returns that list, and the 32
  raw bytes of an inner content digest enter the outer stream as one atomic
  `HashItem.inner` item carrying the bytes that produced it.  The final
  `hex_lower` rendering is an injective encoding of the 32 digest bytes and
  is elided: two runs return equal hex strings iff their modelled results
  are equal.
* Filesystem behaviour (directory walking, file reads, metadata, ignore-file
  contents) is an explicit `Snapshot` value; the walk order is part of the
  snapshot, which is how enumeration-order claims are stated.
-/

namespace GetDirHash

/-- Codepoints of a Lean string literal; used to transcribe the Rust string
literals of the source into the `List Nat` string model. -/
def strN (s : String) : List Nat := s.toList.map Char.toNat

/-- Models `u8::to_ascii_lowercase` / the per-character ASCII fold: uppercase
ASCII letters are shifted to lowercase, everything else is unchanged. -/
def asciiLowerChar (c : Nat) : Nat := if 65 ≤ c ∧ c ≤ 90 then c + 32 else c

/-- Models `str::to_ascii_lowercase` (used by `cmp_case_insensitive`,
src/lib.rs line 248). -/
def to_ascii_lowercase (s : List Nat) : List Nat := s.map asciiLowerChar

/-- Models `str::to_lowercase` (src/lib.rs line 116).  The full Unicode
simple-case table is elided: on ASCII it agrees with `to_ascii_lowercase`,
and non-ASCII codepoints are left unchanged. -/
def to_lowercase (s : List Nat) : List Nat := s.map asciiLowerChar

/-- Lexicographic comparison of codepoint lists, modelling `Ord::cmp` on Rust
`String` (byte-lexicographic; identical to codepoint order on ASCII). -/
def cmpList : List Nat → List Nat → Ordering
  | [], [] => .eq
  | [], _ :: _ => .lt
  | _ :: _, [] => .gt
  | a :: ta, b :: tb => if a < b then .lt else if b < a then .gt else cmpList ta tb

/-- Models `cmp_case_insensitive` (src/lib.rs lines 247-249). -/
def cmp_case_insensitive (a b : List Nat) : Ordering :=
  cmpList (to_ascii_lowercase a) (to_ascii_lowercase b)

/-! ### Glob patterns (model of the `globset` crate as used here)

The source compiles each pattern with `Glob::new` (default options: `*` and
`**` both match any sequence of characters including `/`, `?` matches one
character, `[...]` is a character class) and matches the union of the
compiled patterns.  Brace alternation is not modelled and is rejected at
compile time; no claim exercises it.  Backslashes never reach the compiler
because the source replaces them with `/` first. -/

inductive GlobTok where
  | lit (c : Nat)
  | one
  | many
  | cls (neg : Bool) (ranges : List (Nat × Nat))
deriving DecidableEq, Repr

/-- Parse the body of a `[...]` character class (after the opening bracket
and optional `!`): returns the member ranges and the remaining input, or an
error for an unterminated class.  Range syntax `a-b` is modelled as the
three member characters `a`, `-`, `b` (a simplification of `globset`; no
claim exercises character classes). -/
def parseClass : List Nat → Except Unit (List (Nat × Nat) × List Nat)
  | [] => .error ()
  | c :: rest =>
    if c = 93 then .ok ([], rest)
    else
      match parseClass rest with
      | .error e => .error e
      | .ok (rs, rem) => .ok ((c, c) :: rs, rem)

theorem parseClass_length : ∀ {l : List Nat} {rs : List (Nat × Nat)} {rem : List Nat},
    parseClass l = .ok (rs, rem) → rem.length < l.length := by
  intro l
  induction l with
  | nil => intro rs rem h; simp [parseClass] at h
  | cons c rest ih =>
    intro rs rem h
    rw [parseClass] at h
    by_cases hc : c = 93
    · simp [hc] at h
      simp [h.2]
    · simp [hc] at h
      rcases hrec : parseClass rest with e | pr
      · rw [hrec] at h; simp at h
      · rw [hrec] at h
        simp at h
        have := @ih pr.1 pr.2 (by rw [hrec])
        obtain ⟨h1, h2⟩ := h
        simp [← h2]
        omega

/-- Fuel-indexed compilation loop for `globNew`.  Every step consumes at
least one input character (`parseClass_length`), so with fuel
`input.length + 1` the fuel case is unreachable; fuel only makes the
recursion structural. -/
def globNewF : Nat → List Nat → Except Unit (List GlobTok)
  | 0, _ => .error ()
  | _ + 1, [] => .ok []
  | fuel + 1, 63 :: rest =>
    match globNewF fuel rest with
    | .error e => .error e
    | .ok g => .ok (.one :: g)
  | fuel + 1, 42 :: rest =>
    match globNewF fuel rest with
    | .error e => .error e
    | .ok g => .ok (.many :: g)
  | _ + 1, 123 :: _ => .error ()
  | _ + 1, 125 :: _ => .error ()
  | fuel + 1, 91 :: 33 :: rest =>
    match parseClass rest with
    | .error _ => .error ()
    | .ok (rs, rem) =>
      match globNewF fuel rem with
      | .error e => .error e
      | .ok g => .ok (.cls true rs :: g)
  | fuel + 1, 91 :: rest =>
    match parseClass rest with
    | .error _ => .error ()
    | .ok (rs, rem) =>
      match globNewF fuel rem with
      | .error e => .error e
      | .ok g => .ok (.cls false rs :: g)
  | fuel + 1, c :: rest =>
    match globNewF fuel rest with
    | .error e => .error e
    | .ok g => .ok (.lit c :: g)

/-- Models `Glob::new` (pattern compilation). -/
def globNew (p : List Nat) : Except Unit (List GlobTok) :=
  globNewF (p.length + 1) p

/-- Membership of a character in a class body. -/
def inClass (rs : List (Nat × Nat)) (c : Nat) : Bool :=
  rs.any fun r => decide (r.1 ≤ c) && decide (c ≤ r.2)

/-- All suffixes of a list, longest first. -/
def listSuffixes : List Nat → List (List Nat)
  | [] => [[]]
  | x :: xs => (x :: xs) :: listSuffixes xs

/-- Models matching one compiled glob against a path string (`globset` with
default options: `*` and `**` match any sequence including `/`, so a
`many` token matches when the remaining pattern matches some suffix). -/
def globMatch : List GlobTok → List Nat → Bool
  | [], xs => xs.isEmpty
  | .many :: ts, xs => (listSuffixes xs).any fun s2 => globMatch ts s2
  | .lit c :: ts, x :: xs => c == x && globMatch ts xs
  | .one :: ts, _ :: xs => globMatch ts xs
  | .cls neg rs :: ts, x :: xs => (inClass rs x != neg) && globMatch ts xs
  | _ :: _, [] => false

/-- A compiled `GlobSet`: the union of its compiled patterns. -/
abbrev GlobSet := List (List GlobTok)

/-- Models `GlobSet::is_match`: some compiled pattern matches. -/
def isMatch (gs : GlobSet) (s : List Nat) : Bool := gs.any fun g => globMatch g s

/-- Models `p.replace('\\', "/")` (src/lib.rs lines 154 and 176). -/
def replaceBackslash (p : List Nat) : List Nat :=
  p.map fun c => if c = 92 then 47 else c

/-! ### Paths

`std::path::Path` values are modelled as lists of components, mirroring the
`Component` cases matched in `path_to_unix_string`; `otherComp` stands for
the `Prefix`/`RootDir` components caught by the `_ => {}` arm. -/

inductive PathComp where
  | curDir
  | parentDir
  | normal (s : List Nat)
  | otherComp
deriving DecidableEq, Repr

/-- One step of the component loop of `path_to_unix_string` (src/lib.rs
lines 230-242): drop `.`, pop on `..`, push normal names, skip the rest. -/
def collectStep (parts : List (List Nat)) : PathComp → List (List Nat)
  | .curDir => parts
  | .parentDir => parts.dropLast
  | .normal s => parts ++ [s]
  | .otherComp => parts

/-- The collected path components of `path_to_unix_string`. -/
def collectParts (p : List PathComp) : List (List Nat) :=
  p.foldl collectStep []

/-- Models `Vec::join("/")` on the collected parts. -/
def joinSlash : List (List Nat) → List Nat
  | [] => []
  | [p] => p
  | p :: rest => p ++ 47 :: joinSlash rest

/-- Models `path_to_unix_string` (src/lib.rs lines 229-244). -/
def path_to_unix_string (p : List PathComp) : List Nat :=
  joinSlash (collectParts p)

/-- Splitting a codepoint list at a separator byte; auxiliary for parsing a
`/`-separated string back into path components and for splitting pattern
files into lines. -/
def splitOnByte (sep : Nat) : List Nat → List (List Nat)
  | [] => [[]]
  | c :: rest =>
    match splitOnByte sep rest with
    | [] => [[c]]
    | cur :: more =>
      if c = sep then [] :: cur :: more else (c :: cur) :: more

/-- Models `Path::components` on a `/`-separated relative path string:
empty segments vanish, `.` parses as `CurDir`, `..` as `ParentDir`.  (Rust
additionally normalizes interior `.` segments away at this stage; both
readings are erased by `path_to_unix_string` anyway.) -/
def strToPath (s : List Nat) : List PathComp :=
  ((splitOnByte 47 s).filter (· ≠ [])).map fun part =>
    if part = [46] then .curDir
    else if part = [46, 46] then .parentDir
    else .normal part

/-- Models `Path::strip_prefix` on component lists: remove `root` as a
component-wise prefix, or fail. -/
def stripRoot : List PathComp → List PathComp → Option (List PathComp)
  | [], p => some p
  | _ :: _, [] => none
  | r :: rs, c :: cs => if r = c then stripRoot rs cs else none

/-- Models `make_rel_unix` (src/lib.rs lines 223-226). -/
def make_rel_unix (root p : List PathComp) : Option (List Nat) :=
  (stripRoot root p).map path_to_unix_string

/-! ### Filesystem snapshot, options, metadata -/

/-- Basic metadata of one file, as consumed by `feed_metadata`: the Unix
permission mode word, and the modification time as whole seconds and
sub-second nanoseconds since the Unix epoch when available (the model takes
the `cfg(unix)` branch of the source). -/
structure MetaData where
  mode : Nat
  mtime : Option (Nat × Nat)
deriving DecidableEq, Repr

instance {ε α : Type _} [DecidableEq ε] [DecidableEq α] : DecidableEq (Except ε α) := fun
  | .ok a, .ok b => if h : a = b then .isTrue (by rw [h]) else .isFalse (by simp [h])
  | .ok _, .error _ => .isFalse (by simp)
  | .error _, .ok _ => .isFalse (by simp)
  | .error e, .error f => if h : e = f then .isTrue (by rw [h]) else .isFalse (by simp [h])

/-- One entry yielded by the `walkdir` iterator: an unreadable entry
(`Err`, skipped with a warning), a non-regular-file entry (skipped), or a
regular file with its absolute path, the outcome that `stream_file` would
produce for it at hashing time, and the outcome of `fs::metadata`. -/
inductive WalkEntry where
  | err
  | notFile
  | file (path : List PathComp) (readResult : Except Unit (List Nat))
      (meta : Option MetaData)
deriving DecidableEq, Repr

/-- A fixed snapshot of the filesystem as seen by one `get_dir_hash` call:
the result of canonicalizing the root (`none` models failure, upon which
the source falls back to the given root), the walk output in enumeration
order, the content of `root/.get_dir_hash_ignore` when it is a regular
file, and the contents of the regular files usable as ignore-pattern
files. -/
structure Snapshot where
  canonRoot : Option (List PathComp)
  walk : List WalkEntry
  dotIgnore : Option (List Nat)
  ignoreFiles : List (List PathComp × List Nat)
deriving DecidableEq, Repr

/-- Models `Options` (src/lib.rs lines 24-38). -/
structure Options where
  follow_symlinks : Bool
  include_metadata : Bool
  case_sensitive_paths : Bool
  ignore_patterns : List (List Nat)
  ignore_files : List (List PathComp)
  load_dot_get_dir_hash_ignore : Bool
deriving DecidableEq, Repr

/-- Models `impl Default for Options` (src/lib.rs lines 40-51). -/
def defaultOptions : Options :=
  { follow_symlinks := false
    include_metadata := false
    case_sensitive_paths := true
    ignore_patterns := []
    ignore_files := []
    load_dot_get_dir_hash_ignore := true }

/-- Models `file.is_file()` + `fs::read_to_string` for a configured ignore
file: the content when the path is an existing readable regular file. -/
def lookupFile (snap : Snapshot) (f : List PathComp) : Option (List Nat) :=
  (snap.ignoreFiles.find? fun e => decide (e.1 = f)).map (·.2)

/-- Little-endian byte encoding of width `w`, modelling `to_le_bytes` on the
`w`-byte integer types. -/
def leBytes (w : Nat) (n : Nat) : List Nat :=
  (List.range w).map fun i => n / 256 ^ i % 256

/-- Models `feed_metadata` (src/lib.rs lines 198-220, `cfg(unix)` branch),
returning the bytes it feeds to the outer hasher. -/
def feed_metadata (md : MetaData) : List Nat :=
  [0, 77, 0] ++ leBytes 4 md.mode ++
    (match md.mtime with
     | some (s, n2) => leBytes 8 s ++ leBytes 4 n2
     | none => [])

/-! ### Pattern compilation (`build_globset`, `load_patterns_file`) -/

/-- ASCII whitespace, modelling the characters `str::trim` removes on the
inputs exercised here. -/
def isWS (c : Nat) : Bool := c == 9 || c == 10 || c == 11 || c == 12 || c == 13 || c == 32

/-- Models `str::trim` on a line. -/
def trimList (l : List Nat) : List Nat :=
  ((l.dropWhile isWS).reverse.dropWhile isWS).reverse

/-- Models one iteration of the line loop of `load_patterns_file`
(src/lib.rs lines 166-179): trim; skip empty, `#`-comment and `!`-negation
lines; otherwise normalize separators, compile and append. -/
def lineGlobs (b : List (List GlobTok)) (raw : List Nat) : Except Unit (List (List GlobTok)) :=
  let line := trimList raw
  if line = [] then .ok b
  else if line.head? = some 35 then .ok b
  else if line.head? = some 33 then .ok b
  else
    match globNew (replaceBackslash line) with
    | .error e => .error e
    | .ok g => .ok (b ++ [g])

/-- Models `load_patterns_file` (src/lib.rs lines 164-181) applied to the
file's text content. -/
def load_patterns_file (txt : List Nat) (b : List (List GlobTok)) :
    Except Unit (List (List GlobTok)) :=
  (splitOnByte 10 txt).foldlM lineGlobs b

/-- Loop over the configured ignore files (src/lib.rs lines 145-149):
existing regular files are loaded, anything else is skipped. -/
def globsOfIgnoreFiles (snap : Snapshot) (b : List (List GlobTok)) :
    List (List PathComp) → Except Unit (List (List GlobTok))
  | [] => .ok b
  | f :: rest =>
    match lookupFile snap f with
    | some txt =>
      match load_patterns_file txt b with
      | .error e => .error e
      | .ok b2 => globsOfIgnoreFiles snap b2 rest
    | none => globsOfIgnoreFiles snap b rest

/-- Loop over the inline patterns (src/lib.rs lines 152-156): normalize
separators, compile, append; a compile failure aborts. -/
def globsOfInline (b : List (List GlobTok)) :
    List (List Nat) → Except Unit (List (List GlobTok))
  | [] => .ok b
  | p :: rest =>
    match globNew (replaceBackslash p) with
    | .error e => .error e
    | .ok g => globsOfInline (b ++ [g]) rest

/-- Models `build_globset` (src/lib.rs lines 133-161). -/
def build_globset (root : List PathComp) (snap : Snapshot) (opts : Options) :
    Except Unit GlobSet :=
  match
    (if opts.load_dot_get_dir_hash_ignore then
      match snap.dotIgnore with
      | some txt => load_patterns_file txt []
      | none => .ok []
    else .ok ([] : List (List GlobTok))) with
  | .error e => .error e
  | .ok b1 =>
    match globsOfIgnoreFiles snap b1 opts.ignore_files with
    | .error e => .error e
    | .ok b2 => globsOfInline b2 opts.ignore_patterns

/-! ### The hashing core (`get_dir_hash`)

The outer blake3 hasher is modelled by the list of `HashItem`s fed to it;
an inner content digest (32 raw bytes, `content_digest.as_bytes()`) enters
the outer stream as the single atomic item `HashItem.inner content`, where
`content` is the byte stream the inner hasher consumed — the ideal
collision-free reading of blake3. -/

inductive HashItem where
  | byte (b : Nat)
  | inner (content : List Nat)
deriving DecidableEq, Repr

/-- Items for a chunk of raw bytes fed by `Hasher::update`. -/
def byteItems (bs : List Nat) : List HashItem := bs.map .byte

/-- The domain-separation constant `b"get_dir_hash-v1\0"` (src/lib.rs line
105). -/
def tagList : List Nat := strN "get_dir_hash-v1" ++ [0]

/-- One candidate file as collected by the walk loop: its normalized
root-relative path, the `stream_file` outcome and the `fs::metadata`
outcome. -/
structure FileRec where
  rel : List Nat
  readResult : Except Unit (List Nat)
  meta : Option MetaData
deriving DecidableEq, Repr

/-- The bytes fed to the outer hasher for one file record (src/lib.rs lines
112-125): `b"F\0"`, the (possibly lowercased) path, `b"\0"`, the raw
content-digest bytes, then the best-effort metadata frame when requested. -/
def fileRecordItems (opts : Options) (rel : List Nat) (content : List Nat)
    (meta : Option MetaData) : List HashItem :=
  byteItems [70, 0]
    ++ byteItems (if opts.case_sensitive_paths then rel else to_lowercase rel)
    ++ byteItems [0]
    ++ [.inner content]
    ++ (if opts.include_metadata then
          match meta with
          | some md => byteItems (feed_metadata md)
          | none => []
        else [])

/-- One iteration of the walk loop (src/lib.rs lines 65-92): skip errors and
non-files, normalize and relativize, skip on normalization failure, skip
ignored paths, keep the rest. -/
def candOfEntry (root : List PathComp) (gs : GlobSet) : WalkEntry → Option FileRec
  | .err => none
  | .notFile => none
  | .file p r m =>
    match make_rel_unix root p with
    | none => none
    | some rel => if isMatch gs rel then none else some ⟨rel, r, m⟩

/-- The candidate file list collected by the walk loop, in enumeration
order. -/
def collectFiles (root : List PathComp) (gs : GlobSet) (walk : List WalkEntry) :
    List FileRec :=
  walk.filterMap (candOfEntry root gs)

/-- The sort comparator of src/lib.rs lines 95-101. -/
def sortCmp (cs : Bool) (a b : List Nat) : Ordering :=
  if cs then cmpList a b else cmp_case_insensitive a b

/-- The `sort_by` order as a relation: `a` may come no later than `b`.
`slice::sort_by` is a stable sort, as is `List.insertionSort` with this
relation. -/
def fleProp (cs : Bool) (a b : FileRec) : Prop := sortCmp cs a.rel b.rel ≠ .gt

instance (cs : Bool) : DecidableRel (fleProp cs) := fun a b => by
  unfold fleProp; infer_instance

/-- The canonicalized root: `root.canonicalize().unwrap_or_else(|_|
root.to_path_buf())` (src/lib.rs line 55). -/
def canonOf (root : List PathComp) (snap : Snapshot) : List PathComp :=
  snap.canonRoot.getD root

/-- The fatal error kinds of the core: `InvalidPattern` mapped onto
`io::ErrorKind::InvalidInput`, and I/O failure while streaming a selected
file. -/
inductive HashErr where
  | invalidInput
  | ioErr
deriving DecidableEq, Repr

/-- The per-file hashing loop (src/lib.rs lines 107-126): a `stream_file`
failure aborts the whole run, otherwise the outer stream grows by one file
record. -/
def hashFiles (opts : Options) (acc : List HashItem) :
    List FileRec → Except HashErr (List HashItem)
  | [] => .ok acc
  | f :: rest =>
    match f.readResult with
    | .error _ => .error .ioErr
    | .ok c => hashFiles opts (acc ++ fileRecordItems opts f.rel c f.meta) rest

/-- Models `get_dir_hash` (src/lib.rs lines 54-130).  The returned value is
the finalized outer stream; the lowercase-hex rendering (`hex_lower`) is an
injective encoding of the digest and is elided, so equality of returned
values models equality of the returned digest strings. -/
def get_dir_hash (root : List PathComp) (snap : Snapshot) (opts : Options) :
    Except HashErr (List HashItem) :=
  let rootC := canonOf root snap
  match build_globset rootC snap opts with
  | .error _ => .error .invalidInput
  | .ok gs =>
    let files := collectFiles rootC gs snap.walk
    let sorted := List.insertionSort (fleProp opts.case_sensitive_paths) files
    hashFiles opts (byteItems tagList) sorted

/-- The digest of a tree with zero file records: the domain-separation tag
alone. -/
def emptyTreeDigest : List HashItem := byteItems tagList

/-- The record a file contributes to the outer stream when its read
succeeds (auxiliary for stating the framing theorem). -/
def recordOf (opts : Options) (f : FileRec) : List HashItem :=
  match f.readResult with
  | .ok c => fileRecordItems opts f.rel c f.meta
  | .error _ => []

/-- The normalized relative paths of the regular files appearing in a walk
(whether or not they are ignored). -/
def walkRels (root : List PathComp) (walk : List WalkEntry) : List (List Nat) :=
  walk.filterMap fun e =>
    match e with
    | .file p _ _ => make_rel_unix root p
    | _ => none

/-! ### Ordering lemmas -/

theorem cmpList_eq_iff : ∀ {a b : List Nat}, cmpList a b = .eq ↔ a = b := by
  intro a
  induction a with
  | nil => intro b; cases b <;> simp [cmpList]
  | cons x xs ih =>
    intro b
    cases b with
    | nil => simp [cmpList]
    | cons y ys =>
      simp only [cmpList]
      by_cases h1 : x < y
      · simp only [if_pos h1]
        constructor
        · intro h; cases h
        · intro h
          simp only [List.cons.injEq] at h
          omega
      · by_cases h2 : y < x
        · simp only [if_neg h1, if_pos h2]
          constructor
          · intro h; cases h
          · intro h
            simp only [List.cons.injEq] at h
            omega
        · have hxy : x = y := by omega
          simp [if_neg h1, if_neg h2, hxy, ih]

theorem cmpList_swap : ∀ a b : List Nat, cmpList b a = (cmpList a b).swap := by
  intro a
  induction a with
  | nil => intro b; cases b <;> simp [cmpList, Ordering.swap]
  | cons x xs ih =>
    intro b
    cases b with
    | nil => simp [cmpList, Ordering.swap]
    | cons y ys =>
      simp only [cmpList]
      by_cases h1 : x < y
      · have h2 : ¬y < x := by omega
        simp [if_pos h1, if_neg h2, Ordering.swap]
      · by_cases h2 : y < x
        · simp [if_neg h1, if_pos h2, Ordering.swap]
        · simp [if_neg h1, if_neg h2, ih]

theorem cmpList_le_trans : ∀ {a b c : List Nat},
    cmpList a b ≠ .gt → cmpList b c ≠ .gt → cmpList a c ≠ .gt := by
  intro a
  induction a with
  | nil =>
    intro b c _ _
    cases c <;> simp [cmpList]
  | cons x xs ih =>
    intro b c h1 h2
    cases b with
    | nil => simp [cmpList] at h1
    | cons y ys =>
      cases c with
      | nil => simp [cmpList] at h2
      | cons z zs =>
        simp only [cmpList] at h1 h2 ⊢
        by_cases hxy : x < y
        · by_cases hyz : y < z
          · have hxz : x < z := by omega
            simp [if_pos hxz]
          · by_cases hzy : z < y
            · simp [if_neg hyz, if_pos hzy] at h2
            · have hxz : x < z := by omega
              simp [if_pos hxz]
        · by_cases hyx : y < x
          · simp [if_neg hxy, if_pos hyx] at h1
          · by_cases hyz : y < z
            · have hxz : x < z := by omega
              simp [if_pos hxz]
            · by_cases hzy : z < y
              · simp [if_neg hyz, if_pos hzy] at h2
              · have hxz1 : ¬x < z := by omega
                have hxz2 : ¬z < x := by omega
                simp only [if_neg hxy, if_neg hyx] at h1
                simp only [if_neg hyz, if_neg hzy] at h2
                simp only [if_neg hxz1, if_neg hxz2]
                exact ih h1 h2

/-- The sort key: the relative path itself in case-sensitive mode, its ASCII
lowercasing otherwise. -/
def sortKey (cs : Bool) (r : List Nat) : List Nat :=
  if cs then r else to_ascii_lowercase r

theorem sortCmp_eq_cmpList_sortKey (cs : Bool) (a b : List Nat) :
    sortCmp cs a b = cmpList (sortKey cs a) (sortKey cs b) := by
  cases cs <;> simp [sortCmp, sortKey, cmp_case_insensitive]

instance (cs : Bool) : IsTrans FileRec (fleProp cs) :=
  ⟨fun a b c h1 h2 => by
    simp only [fleProp, sortCmp_eq_cmpList_sortKey] at *
    exact cmpList_le_trans h1 h2⟩

instance (cs : Bool) : IsTotal FileRec (fleProp cs) :=
  ⟨fun a b => by
    simp only [fleProp, sortCmp_eq_cmpList_sortKey]
    by_cases h : cmpList (sortKey cs a.rel) (sortKey cs b.rel) = .gt
    · right
      rw [cmpList_swap, h]
      simp [Ordering.swap]
    · left; exact h⟩

theorem fleProp_both_key_eq {cs : Bool} {a b : FileRec}
    (h1 : fleProp cs a b) (h2 : fleProp cs b a) :
    sortKey cs a.rel = sortKey cs b.rel := by
  simp only [fleProp, sortCmp_eq_cmpList_sortKey] at h1 h2
  rw [cmpList_swap] at h2
  apply cmpList_eq_iff.mp
  cases h : cmpList (sortKey cs a.rel) (sortKey cs b.rel) with
  | lt => rw [h] at h2; simp [Ordering.swap] at h2
  | eq => rfl
  | gt => exact absurd h h1

/-- Members of a list that is pairwise distinct under a projection are
determined by their projection. -/
theorem pairwise_proj_injOn {α β : Type _} {f : α → β} :
    ∀ {l : List α}, l.Pairwise (fun a b => f a ≠ f b) →
      ∀ a ∈ l, ∀ b ∈ l, f a = f b → a = b := by
  intro l
  induction l with
  | nil => simp
  | cons x t ih =>
    intro hpw a ha b hb hf
    rcases List.mem_cons.mp ha with rfl | hat
    · rcases List.mem_cons.mp hb with rfl | hbt
      · rfl
      · exact absurd hf ((List.pairwise_cons.mp hpw).1 b hbt)
    · rcases List.mem_cons.mp hb with rfl | hbt
      · exact absurd hf.symm ((List.pairwise_cons.mp hpw).1 a hat)
      · exact ih (List.pairwise_cons.mp hpw).2 a hat b hbt hf

/-- Two sorted lists that are permutations of each other are equal, given
antisymmetry on the members of the first. -/
theorem perm_sorted_eq {α : Type _} {r : α → α → Prop} :
    ∀ {l1 l2 : List α}, l1.Perm l2 → l1.Pairwise r → l2.Pairwise r →
      (∀ a ∈ l1, ∀ b ∈ l1, r a b → r b a → a = b) → l1 = l2 := by
  intro l1
  induction l1 with
  | nil =>
    intro l2 hp _ _ _
    exact (hp.symm.eq_nil).symm
  | cons a t1 ih =>
    intro l2 hp hs1 hs2 hanti
    cases l2 with
    | nil => exact absurd hp.eq_nil (by simp)
    | cons b t2 =>
      have hab : a = b := by
        have ha2 : a ∈ b :: t2 := hp.mem_iff.mp (List.mem_cons_self a t1)
        have hb1 : b ∈ a :: t1 := hp.symm.mem_iff.mp (List.mem_cons_self b t2)
        rcases List.mem_cons.mp ha2 with h | ha2t
        · exact h
        · rcases List.mem_cons.mp hb1 with h | hb1t
          · exact h.symm
          · have hr1 : r a b := (List.pairwise_cons.mp hs1).1 b hb1t
            have hr2 : r b a := (List.pairwise_cons.mp hs2).1 a ha2t
            exact hanti a (List.mem_cons_self a t1) b
              (List.mem_cons.mpr (Or.inr hb1t)) hr1 hr2
      subst hab
      have hpt : t1.Perm t2 := hp.cons_inv
      have ht : t1 = t2 :=
        ih hpt (List.pairwise_cons.mp hs1).2 (List.pairwise_cons.mp hs2).2
          (fun x hx y hy => hanti x (List.mem_cons.mpr (Or.inr hx)) y
            (List.mem_cons.mpr (Or.inr hy)))
      rw [ht]

/-! ### Lemmas about the hashing loop -/

theorem hashFiles_ok_eq {opts : Options} :
    ∀ {l : List FileRec} {acc d : List HashItem},
      hashFiles opts acc l = .ok d → d = acc ++ (l.map (recordOf opts)).flatten := by
  intro l
  induction l with
  | nil =>
    intro acc d h
    simp [hashFiles] at h
    simp [h]
  | cons f rest ih =>
    intro acc d h
    rw [hashFiles] at h
    cases hr : f.readResult with
    | error e => rw [hr] at h; cases h
    | ok c =>
      rw [hr] at h
      have := ih h
      simp only [List.map_cons, List.flatten_cons, this, recordOf, hr,
        List.append_assoc]

theorem hashFiles_err {opts : Options} :
    ∀ {l : List FileRec} {acc : List HashItem} {f : FileRec},
      f ∈ l → f.readResult = .error () → hashFiles opts acc l = .error .ioErr := by
  intro l
  induction l with
  | nil => intro acc f h; cases h
  | cons g rest ih =>
    intro acc f hmem hread
    rw [hashFiles]
    cases hg : g.readResult with
    | error e => rfl
    | ok c =>
      rcases List.mem_cons.mp hmem with rfl | ht
      · rw [hg] at hread; cases hread
      · exact ih ht hread

theorem hashFiles_ok_of_reads {opts : Options} :
    ∀ {l : List FileRec} {acc : List HashItem},
      (∀ f ∈ l, ∃ c, f.readResult = .ok c) →
      hashFiles opts acc l = .ok (acc ++ (l.map (recordOf opts)).flatten) := by
  intro l
  induction l with
  | nil => intro acc _; simp [hashFiles]
  | cons f rest ih =>
    intro acc hreads
    obtain ⟨c, hc⟩ := hreads f (List.mem_cons_self f rest)
    rw [hashFiles, hc]
    dsimp only
    rw [ih (fun g hg => hreads g (List.mem_cons.mpr (Or.inr hg)))]
    simp [recordOf, hc, List.append_assoc]

/-- Zero surviving candidates yield the fixed empty-tree digest; shared by
the empty-directory and unreadable-root claims. -/
theorem get_dir_hash_of_no_candidates {root : List PathComp} {snap : Snapshot}
    {opts : Options} {gs : GlobSet}
    (hGs : build_globset (canonOf root snap) snap opts = .ok gs)
    (hEmpty : collectFiles (canonOf root snap) gs snap.walk = []) :
    get_dir_hash root snap opts = .ok emptyTreeDigest := by
  simp only [get_dir_hash, hGs, hEmpty]
  rfl

theorem collectFiles_of_all_err {root : List PathComp} {gs : GlobSet} :
    ∀ {w : List WalkEntry}, (∀ e ∈ w, e = .err) → collectFiles root gs w = [] := by
  intro w
  induction w with
  | nil => intro _; rfl
  | cons e rest ih =>
    intro h
    have he : e = .err := h e (List.mem_cons_self e rest)
    subst he
    simp only [collectFiles, List.filterMap_cons, candOfEntry]
    exact ih fun x hx => h x (List.mem_cons.mpr (Or.inr hx))

/-! ### Claim C2 -/

/-- C2: for every root directory containing no non-ignored regular files
(and successfully compiled patterns), `get_dir_hash` returns the fixed
constant digest obtained by hashing the domain-separation tag alone with
zero file records, independently of the root path. -/
theorem get_dir_hash_empty_tree (root : List PathComp) (snap : Snapshot)
    (opts : Options) (gs : GlobSet)
    (hGs : build_globset (canonOf root snap) snap opts = .ok gs)
    (hEmpty : collectFiles (canonOf root snap) gs snap.walk = []) :
    get_dir_hash root snap opts = .ok emptyTreeDigest :=
  get_dir_hash_of_no_candidates hGs hEmpty

theorem get_dir_hash_empty_tree_witness :
    build_globset (canonOf [PathComp.normal (strN "r")] ⟨none, [], none, []⟩)
        ⟨none, [], none, []⟩ defaultOptions = .ok [] ∧
      collectFiles (canonOf [PathComp.normal (strN "r")] ⟨none, [], none, []⟩) []
        (Snapshot.walk ⟨none, [], none, []⟩) = [] ∧
      get_dir_hash [PathComp.normal (strN "r")] ⟨none, [], none, []⟩ defaultOptions =
        .ok emptyTreeDigest :=
  ⟨by decide, by decide,
    get_dir_hash_empty_tree [PathComp.normal (strN "r")] ⟨none, [], none, []⟩
      defaultOptions [] (by decide) (by decide)⟩

/-! ### Claim C3

The claim says an unreadable root is fatal.  The code instead skips every
unreadable walk entry — including the error entry `walkdir` yields for an
unreadable or nonexistent root — with a warning (src/lib.rs lines 66-74),
`canonicalize` failure falls back to the unchanged root (line 55), and
`.get_dir_hash_ignore` discovery treats an unreadable root as the file not
existing (line 139); the run then completes and returns the empty-tree
digest. -/

/-- C3 counterexample: with a nonexistent/unreadable root (canonicalization
fails, the walk yields a single error entry), `get_dir_hash` does not
return a fatal `Io` error: it succeeds with the empty-tree digest. -/
theorem unreadable_root_counterexample :
    get_dir_hash [] ⟨none, [.err], none, []⟩ defaultOptions = .ok emptyTreeDigest := by
  decide

/-- C3 as amended: an unreadable root is a tolerated skip case.  When every
walk entry is an unreadable-entry error (as for an unreadable root) and
pattern compilation succeeds, `get_dir_hash` returns the empty-tree digest
instead of a fatal `Io` error. -/
theorem unreadable_root_skipped (root : List PathComp) (snap : Snapshot)
    (opts : Options) (gs : GlobSet)
    (hw : ∀ e ∈ snap.walk, e = .err)
    (hGs : build_globset (canonOf root snap) snap opts = .ok gs) :
    get_dir_hash root snap opts = .ok emptyTreeDigest :=
  get_dir_hash_of_no_candidates hGs (collectFiles_of_all_err hw)

theorem unreadable_root_skipped_witness :
    (∀ e ∈ Snapshot.walk ⟨none, [.err], none, []⟩, e = WalkEntry.err) ∧
      build_globset (canonOf [] ⟨none, [.err], none, []⟩) ⟨none, [.err], none, []⟩
        defaultOptions = .ok [] ∧
      get_dir_hash [] ⟨none, [.err], none, []⟩ defaultOptions = .ok emptyTreeDigest :=
  ⟨by decide, by decide,
    unreadable_root_skipped [] ⟨none, [.err], none, []⟩ defaultOptions []
      (by decide) (by decide)⟩

/-! ### Claim C4 -/

/-- C4: on every successful run the outer stream is exactly the fixed
domain-separation constant (ASCII tag plus NUL, `tagList`) followed, for
each file in sorted order, by its record `recordOf`, which by definition
(`fileRecordItems`) is, in this exact order: the one-byte file-record type
tag `F` plus NUL, the normalized path bytes (lowercased first when
case-insensitive mode is active) plus NUL, and the raw content-digest
bytes — followed by the optional metadata frame. -/
theorem get_dir_hash_framing (root : List PathComp) (snap : Snapshot)
    (opts : Options) (gs : GlobSet) (d : List HashItem)
    (hGs : build_globset (canonOf root snap) snap opts = .ok gs)
    (hOk : get_dir_hash root snap opts = .ok d) :
    d = byteItems tagList ++
      ((List.insertionSort (fleProp opts.case_sensitive_paths)
          (collectFiles (canonOf root snap) gs snap.walk)).map (recordOf opts)).flatten := by
  simp only [get_dir_hash, hGs] at hOk
  exact hashFiles_ok_eq hOk

theorem get_dir_hash_framing_witness :
    build_globset (canonOf [] ⟨none, [.file [.normal [97]] (.ok [104, 105]) none], none, []⟩)
        ⟨none, [.file [.normal [97]] (.ok [104, 105]) none], none, []⟩ defaultOptions = .ok [] ∧
      get_dir_hash [] ⟨none, [.file [.normal [97]] (.ok [104, 105]) none], none, []⟩
        defaultOptions =
        .ok (byteItems tagList ++ [.byte 70, .byte 0, .byte 97, .byte 0, .inner [104, 105]]) ∧
      byteItems tagList ++ [HashItem.byte 70, .byte 0, .byte 97, .byte 0, .inner [104, 105]] =
        byteItems tagList ++
          ((List.insertionSort (fleProp defaultOptions.case_sensitive_paths)
              (collectFiles
                (canonOf [] ⟨none, [.file [.normal [97]] (.ok [104, 105]) none], none, []⟩) []
                (Snapshot.walk
                  ⟨none, [.file [.normal [97]] (.ok [104, 105]) none], none,
                    []⟩))).map (recordOf defaultOptions)).flatten :=
  ⟨by decide, by decide,
    get_dir_hash_framing [] ⟨none, [.file [.normal [97]] (.ok [104, 105]) none], none, []⟩
      defaultOptions []
      (byteItems tagList ++ [.byte 70, .byte 0, .byte 97, .byte 0, .inner [104, 105]])
      (by decide) (by decide)⟩

/-! ### Claim C8 -/

/-- C8: if reading the content of any file selected for hashing fails, the
whole run aborts with an I/O error; no digest is returned. -/
theorem read_failure_aborts (root : List PathComp) (snap : Snapshot) (opts : Options)
    (gs : GlobSet) (f : FileRec)
    (hGs : build_globset (canonOf root snap) snap opts = .ok gs)
    (hf : f ∈ collectFiles (canonOf root snap) gs snap.walk)
    (hread : f.readResult = .error ()) :
    get_dir_hash root snap opts = .error .ioErr := by
  simp only [get_dir_hash, hGs]
  exact hashFiles_err ((List.mem_insertionSort _).mpr hf) hread

theorem read_failure_aborts_witness :
    build_globset (canonOf [] ⟨none, [.file [.normal [97]] (.error ()) none], none, []⟩)
        ⟨none, [.file [.normal [97]] (.error ()) none], none, []⟩ defaultOptions = .ok [] ∧
      (⟨[97], .error (), none⟩ : FileRec) ∈
        collectFiles (canonOf [] ⟨none, [.file [.normal [97]] (.error ()) none], none, []⟩) []
          (Snapshot.walk ⟨none, [.file [.normal [97]] (.error ()) none], none, []⟩) ∧
      get_dir_hash [] ⟨none, [.file [.normal [97]] (.error ()) none], none, []⟩
        defaultOptions = .error .ioErr :=
  ⟨by decide, by decide,
    read_failure_aborts [] ⟨none, [.file [.normal [97]] (.error ()) none], none, []⟩
      defaultOptions [] ⟨[97], .error (), none⟩ (by decide) (by decide) (by decide)⟩

/-! ### Lemmas about pattern compilation -/

theorem globsOfInline_append {p : List Nat} {g : List GlobTok}
    (hp : globNew (replaceBackslash p) = .ok g) :
    ∀ {ps : List (List Nat)} {b : List (List GlobTok)},
      globsOfInline b (ps ++ [p]) =
        match globsOfInline b ps with
        | .error e => .error e
        | .ok gs => .ok (gs ++ [g]) := by
  intro ps
  induction ps with
  | nil =>
    intro b
    simp [globsOfInline, hp]
  | cons q rest ih =>
    intro b
    simp only [List.cons_append, globsOfInline]
    cases hq : globNew (replaceBackslash q) with
    | error e => rfl
    | ok gq => exact ih

theorem build_globset_append_pattern {root : List PathComp} {snap : Snapshot}
    {opts : Options} {p : List Nat} {g : List GlobTok}
    (hp : globNew (replaceBackslash p) = .ok g) :
    build_globset root snap {opts with ignore_patterns := opts.ignore_patterns ++ [p]} =
      match build_globset root snap opts with
      | .error e => .error e
      | .ok gs => .ok (gs ++ [g]) := by
  unfold build_globset
  dsimp only
  cases h1 : (if opts.load_dot_get_dir_hash_ignore then
      match snap.dotIgnore with
      | some txt => load_patterns_file txt []
      | none => .ok []
    else .ok ([] : List (List GlobTok))) with
  | error e => rfl
  | ok b1 =>
    dsimp only
    cases h2 : globsOfIgnoreFiles snap b1 opts.ignore_files with
    | error e => rfl
    | ok b2 => exact globsOfInline_append hp

theorem isMatch_append (gs : GlobSet) (g : List GlobTok) (s : List Nat) :
    isMatch (gs ++ [g]) s = (isMatch gs s || globMatch g s) := by
  simp [isMatch, List.any_append]

theorem walkRels_mem_tail {root : List PathComp} {e : WalkEntry}
    {rest : List WalkEntry} {rel : List Nat} (h : rel ∈ walkRels root rest) :
    rel ∈ walkRels root (e :: rest) := by
  unfold walkRels at h ⊢
  rw [List.filterMap_cons]
  cases e with
  | err => exact h
  | notFile => exact h
  | file p r m =>
    dsimp only
    cases make_rel_unix root p with
    | none => exact h
    | some b => exact List.mem_cons.mpr (Or.inr h)

theorem collectFiles_append_unmatched {root : List PathComp} {gs : GlobSet}
    {g : List GlobTok} :
    ∀ {w : List WalkEntry}, (∀ rel ∈ walkRels root w, globMatch g rel = false) →
      collectFiles root (gs ++ [g]) w = collectFiles root gs w := by
  intro w
  induction w with
  | nil => intro _; rfl
  | cons e rest ih =>
    intro h
    have hrest := ih fun rel hr => h rel (walkRels_mem_tail hr)
    cases e with
    | err => simpa [collectFiles, List.filterMap_cons, candOfEntry] using hrest
    | notFile => simpa [collectFiles, List.filterMap_cons, candOfEntry] using hrest
    | file p r m =>
      simp only [collectFiles, List.filterMap_cons, candOfEntry]
      cases hrel : make_rel_unix root p with
      | none => simpa [collectFiles] using hrest
      | some rel =>
        dsimp only
        have hg : globMatch g rel = false := by
          apply h
          simp [walkRels, List.filterMap_cons, hrel]
        rw [isMatch_append, hg]
        simp only [Bool.or_false]
        cases isMatch gs rel <;> simpa [collectFiles] using hrest

theorem collectFiles_not_matched {root : List PathComp} {gs : GlobSet} :
    ∀ {w : List WalkEntry} {f : FileRec}, f ∈ collectFiles root gs w →
      isMatch gs f.rel = false := by
  intro w
  induction w with
  | nil => intro f h; cases h
  | cons e rest ih =>
    intro f h
    cases e with
    | err => exact ih (by simpa [collectFiles, List.filterMap_cons, candOfEntry] using h)
    | notFile => exact ih (by simpa [collectFiles, List.filterMap_cons, candOfEntry] using h)
    | file p r m =>
      simp only [collectFiles, List.filterMap_cons, candOfEntry] at h
      cases hrel : make_rel_unix root p with
      | none => rw [hrel] at h; exact ih h
      | some rel =>
        rw [hrel] at h
        dsimp only at h
        by_cases hm : isMatch gs rel = true
        · rw [if_pos hm] at h
          exact ih h
        · rw [if_neg hm] at h
          rcases List.mem_cons.mp h with rfl | ht
          · simpa using hm
          · exact ih ht

theorem hashFiles_opts_congr {o1 o2 : Options}
    (hcs : o1.case_sensitive_paths = o2.case_sensitive_paths)
    (hmeta : o1.include_metadata = o2.include_metadata) :
    ∀ (l : List FileRec) (acc : List HashItem),
      hashFiles o1 acc l = hashFiles o2 acc l := by
  intro l
  induction l with
  | nil => intro acc; rfl
  | cons f rest ih =>
    intro acc
    rw [hashFiles, hashFiles]
    cases f.readResult with
    | error e => rfl
    | ok c =>
      dsimp only
      have hrec : fileRecordItems o1 f.rel c f.meta = fileRecordItems o2 f.rel c f.meta := by
        simp [fileRecordItems, hcs, hmeta]
      rw [hrec, ih]

/-! ### Claim C5 -/

/-- C5: a file whose normalized relative path matches a compiled ignore
pattern never appears in the ordered file list; and appending an inline
ignore pattern that compiles but matches none of the walked paths leaves
the result of `get_dir_hash` (hence the final digest) unchanged. -/
theorem ignore_correctness :
    (∀ (root : List PathComp) (gs : GlobSet) (walk : List WalkEntry) (cs : Bool)
        (f : FileRec),
        f ∈ List.insertionSort (fleProp cs) (collectFiles root gs walk) →
        isMatch gs f.rel = false) ∧
    (∀ (root : List PathComp) (snap : Snapshot) (opts : Options) (p : List Nat)
        (g : List GlobTok),
        globNew (replaceBackslash p) = .ok g →
        (∀ rel ∈ walkRels (canonOf root snap) snap.walk, globMatch g rel = false) →
        get_dir_hash root snap {opts with ignore_patterns := opts.ignore_patterns ++ [p]} =
          get_dir_hash root snap opts) := by
  constructor
  · intro root gs walk cs f hf
    exact collectFiles_not_matched ((List.mem_insertionSort _).mp hf)
  · intro root snap opts p g hp hm
    simp only [get_dir_hash]
    rw [build_globset_append_pattern hp]
    cases hb : build_globset (canonOf root snap) snap opts with
    | error e => rfl
    | ok gs =>
      dsimp only
      rw [collectFiles_append_unmatched hm]
      exact @hashFiles_opts_congr
        {opts with ignore_patterns := opts.ignore_patterns ++ [p]} opts rfl rfl _ _

theorem ignore_correctness_witness :
    ((⟨[97], .ok [], none⟩ : FileRec) ∈
        List.insertionSort (fleProp true)
          (collectFiles [] [[GlobTok.lit 98]]
            [.file [.normal [97]] (.ok []) none, .file [.normal [98]] (.ok []) none]) →
      isMatch [[GlobTok.lit 98]] [97] = false) ∧
      globNew (replaceBackslash (strN "b")) = .ok [GlobTok.lit 98] ∧
      (∀ rel ∈ walkRels (canonOf [] ⟨none, [.file [.normal [97]] (.ok []) none], none, []⟩)
          (Snapshot.walk ⟨none, [.file [.normal [97]] (.ok []) none], none, []⟩),
        globMatch [GlobTok.lit 98] rel = false) ∧
      get_dir_hash [] ⟨none, [.file [.normal [97]] (.ok []) none], none, []⟩
          { defaultOptions with
            ignore_patterns := defaultOptions.ignore_patterns ++ [strN "b"] } =
        get_dir_hash [] ⟨none, [.file [.normal [97]] (.ok []) none], none, []⟩
          defaultOptions :=
  ⟨fun h => ignore_correctness.1 [] [[GlobTok.lit 98]]
      [.file [.normal [97]] (.ok []) none, .file [.normal [98]] (.ok []) none] true
      ⟨[97], .ok [], none⟩ h,
    by decide, by decide,
    ignore_correctness.2 [] ⟨none, [.file [.normal [97]] (.ok []) none], none, []⟩
      defaultOptions (strN "b") [GlobTok.lit 98] (by decide) (by decide)⟩

/-! ### Claim C10 -/

theorem globsOfIgnoreFiles_skip {snap : Snapshot} {f : List PathComp}
    (hf : lookupFile snap f = none) :
    ∀ {l1 l2 : List (List PathComp)} {b : List (List GlobTok)},
      globsOfIgnoreFiles snap b (l1 ++ f :: l2) = globsOfIgnoreFiles snap b (l1 ++ l2) := by
  intro l1
  induction l1 with
  | nil =>
    intro l2 b
    simp only [List.nil_append, globsOfIgnoreFiles, hf]
  | cons x rest ih =>
    intro l2 b
    simp only [List.cons_append, globsOfIgnoreFiles]
    cases hx : lookupFile snap x with
    | none => exact ih
    | some txt =>
      dsimp only
      cases load_patterns_file txt b with
      | error e => rfl
      | ok b2 => exact ih

/-- C10: a configured ignore-file path that does not refer to an existing
regular file is silently skipped during pattern compilation: no error is
raised, and the result of `get_dir_hash` is the same as if the entry were
absent from the list. -/
theorem missing_ignore_file_skipped (root : List PathComp) (snap : Snapshot)
    (opts : Options) (f : List PathComp) (l1 l2 : List (List PathComp))
    (hf : lookupFile snap f = none)
    (hfiles : opts.ignore_files = l1 ++ f :: l2) :
    get_dir_hash root snap opts =
      get_dir_hash root snap {opts with ignore_files := l1 ++ l2} := by
  simp only [get_dir_hash]
  have hb : build_globset (canonOf root snap) snap opts =
      build_globset (canonOf root snap) snap {opts with ignore_files := l1 ++ l2} := by
    unfold build_globset
    dsimp only
    cases h1 : (if opts.load_dot_get_dir_hash_ignore then
        match snap.dotIgnore with
        | some txt => load_patterns_file txt []
        | none => .ok []
      else .ok ([] : List (List GlobTok))) with
    | error e => rfl
    | ok b1 =>
      dsimp only
      rw [hfiles, globsOfIgnoreFiles_skip hf]
  rw [hb]
  cases build_globset (canonOf root snap) snap {opts with ignore_files := l1 ++ l2} with
  | error e => rfl
  | ok gs =>
    dsimp only
    exact @hashFiles_opts_congr opts {opts with ignore_files := l1 ++ l2} rfl rfl _ _

theorem missing_ignore_file_skipped_witness :
    lookupFile ⟨none, [], none, []⟩ [PathComp.normal [120]] = none ∧
      Options.ignore_files
          { defaultOptions with ignore_files := [[PathComp.normal [120]]] } =
        [] ++ [PathComp.normal [120]] :: [] ∧
      get_dir_hash [] ⟨none, [], none, []⟩
          { defaultOptions with ignore_files := [[PathComp.normal [120]]] } =
        get_dir_hash [] ⟨none, [], none, []⟩
          { { defaultOptions with ignore_files := [[PathComp.normal [120]]] } with
            ignore_files := [] ++ [] } :=
  ⟨by decide, by decide,
    missing_ignore_file_skipped [] ⟨none, [], none, []⟩
      { defaultOptions with ignore_files := [[PathComp.normal [120]]] }
      [PathComp.normal [120]] [] [] (by decide) (by decide)⟩

/-! ### Claim C6

The claim asserts that `!`-negation patterns are dropped both in pattern
files and inline.  Only pattern-file lines are dropped (src/lib.rs lines
171-175); inline patterns go straight to `Glob::new` (lines 152-156),
where a leading `!` has no special meaning, so an inline `"!a"` compiles
to a literal matcher and can exclude a file named `!a`. -/

theorem lineGlobs_bang {b : List (List GlobTok)} {raw : List Nat}
    (h : (trimList raw).head? = some 33) : lineGlobs b raw = .ok b := by
  unfold lineGlobs
  have hne : ¬ trimList raw = [] := by
    intro he; rw [he] at h; cases h
  have h35 : ¬ (trimList raw).head? = some 35 := by rw [h]; simp
  rw [if_neg hne, if_neg h35, if_pos h]

theorem load_lines_bang_skip {bang : List Nat} (hb : (trimList bang).head? = some 33) :
    ∀ {ls1 ls2 : List (List Nat)} {b : List (List GlobTok)},
      List.foldlM lineGlobs b (ls1 ++ bang :: ls2) =
        List.foldlM lineGlobs b (ls1 ++ ls2) := by
  intro ls1
  induction ls1 with
  | nil =>
    intro ls2 b
    simp only [List.nil_append, List.foldlM_cons, lineGlobs_bang hb]
    rfl
  | cons x rest ih =>
    intro ls2 b
    simp only [List.cons_append, List.foldlM_cons]
    cases lineGlobs b x with
    | error e => rfl
    | ok b2 => exact ih

/-- C6 counterexample: the inline ignore pattern `"!a"` is not dropped — it
compiles to a literal glob which excludes the file named `!a`, changing the
digest; the original claim's "never causes any path to be excluded" fails
for inline patterns. -/
theorem inline_bang_counterexample :
    get_dir_hash [] ⟨none, [.file [.normal (strN "!a")] (.ok []) none], none, []⟩
        { defaultOptions with ignore_patterns := [strN "!a"] } = .ok emptyTreeDigest ∧
      get_dir_hash [] ⟨none, [.file [.normal (strN "!a")] (.ok []) none], none, []⟩
        defaultOptions ≠ .ok emptyTreeDigest := by
  exact ⟨by decide, by decide⟩

/-- C6 as amended: a pattern-file line whose trimmed form begins with `!`
is recognized and silently dropped during compilation, never affecting the
compiled set; an inline ignore pattern beginning with `!`, by contrast, is
not dropped: it is compiled as an ordinary glob in which `!` has no special
meaning (so it matches a literal `!`). -/
theorem bang_lines_dropped :
    (∀ (txt : List Nat) (ls1 ls2 : List (List Nat)) (bang : List Nat)
        (b : List (List GlobTok)),
        splitOnByte 10 txt = ls1 ++ bang :: ls2 →
        (trimList bang).head? = some 33 →
        load_patterns_file txt b = List.foldlM lineGlobs b (ls1 ++ ls2)) ∧
      globsOfInline [] [strN "!a"] = .ok [[GlobTok.lit 33, GlobTok.lit 97]] ∧
      isMatch [[GlobTok.lit 33, GlobTok.lit 97]] (strN "!a") = true := by
  refine ⟨?_, by decide, by decide⟩
  intro txt ls1 ls2 bang b hsplit hb
  unfold load_patterns_file
  rw [hsplit]
  exact load_lines_bang_skip hb

theorem bang_lines_dropped_witness :
    splitOnByte 10 (strN "!x\na") = [] ++ strN "!x" :: [strN "a"] ∧
      (trimList (strN "!x")).head? = some 33 ∧
      load_patterns_file (strN "!x\na") [] =
        List.foldlM lineGlobs [] ([] ++ [strN "a"]) :=
  ⟨by decide, by decide,
    bang_lines_dropped.1 (strN "!x\na") [] [strN "a"] (strN "!x") []
      (by decide) (by decide)⟩

/-! ### Claim C7: path-normalization lemmas -/

/-- A well-formed `Component::Normal` name, as guaranteed by Rust's path
parser: nonempty, not `.` or `..`, and containing no `/` separator. -/
def goodName (s : List Nat) : Prop :=
  s ≠ [] ∧ s ≠ [46] ∧ s ≠ [46, 46] ∧ ¬ 47 ∈ s

instance : DecidablePred goodName := fun s => by
  unfold goodName; infer_instance

/-- Well-formedness of one path component: normal names are `goodName`. -/
def compGood : PathComp → Prop
  | .normal s => goodName s
  | _ => True

instance : DecidablePred compGood := fun c =>
  match c with
  | .curDir => .isTrue trivial
  | .parentDir => .isTrue trivial
  | .normal s => inferInstanceAs (Decidable (goodName s))
  | .otherComp => .isTrue trivial

theorem splitOnByte_ne_nil (sep : Nat) : ∀ l : List Nat, splitOnByte sep l ≠ [] := by
  intro l
  induction l with
  | nil => simp [splitOnByte]
  | cons c rest ih =>
    rw [splitOnByte]
    cases h : splitOnByte sep rest with
    | nil => simp
    | cons cur more =>
      by_cases hc : c = sep <;> simp [hc]

theorem splitOnByte_no_sep {sep : Nat} : ∀ {p : List Nat}, ¬ sep ∈ p →
    splitOnByte sep p = [p] := by
  intro p
  induction p with
  | nil => intro _; rfl
  | cons c rest ih =>
    intro h
    have hc : ¬ c = sep := fun he => h (he ▸ List.mem_cons_self c rest)
    have hrest : ¬ sep ∈ rest := fun hm => h (List.mem_cons.mpr (Or.inr hm))
    rw [splitOnByte, ih hrest]
    simp [hc]

theorem splitOnByte_append {sep : Nat} : ∀ {p t : List Nat}, ¬ sep ∈ p →
    splitOnByte sep (p ++ sep :: t) = p :: splitOnByte sep t := by
  intro p
  induction p with
  | nil =>
    intro t _
    rw [List.nil_append, splitOnByte]
    cases h : splitOnByte sep t with
    | nil => exact absurd h (splitOnByte_ne_nil sep t)
    | cons cur more => simp
  | cons c rest ih =>
    intro t h
    have hc : ¬ c = sep := fun he => h (he ▸ List.mem_cons_self c rest)
    have hrest : ¬ sep ∈ rest := fun hm => h (List.mem_cons.mpr (Or.inr hm))
    rw [List.cons_append, splitOnByte, ih hrest]
    simp [hc]

theorem join_split_parts : ∀ {parts : List (List Nat)}, (∀ x ∈ parts, ¬ 47 ∈ x) →
    parts ≠ [] → splitOnByte 47 (joinSlash parts) = parts := by
  intro parts
  induction parts with
  | nil => intro _ h; exact absurd rfl h
  | cons p rest ih =>
    intro hmem _
    cases rest with
    | nil =>
      rw [joinSlash]
      exact splitOnByte_no_sep (hmem p (List.mem_cons_self p []))
    | cons q rest2 =>
      rw [joinSlash, splitOnByte_append (hmem p (List.mem_cons_self p _))]
      · rw [ih (fun x hx => hmem x (List.mem_cons.mpr (Or.inr hx)))
          (List.cons_ne_nil q rest2)]
      · exact List.cons_ne_nil q rest2

theorem strToPath_joinSlash {parts : List (List Nat)}
    (h : ∀ x ∈ parts, goodName x) :
    strToPath (joinSlash parts) = parts.map .normal := by
  cases hp : parts with
  | nil => rfl
  | cons p rest =>
    rw [← hp]
    unfold strToPath
    rw [join_split_parts (fun x hx => (h x hx).2.2.2) (by rw [hp]; simp)]
    have hfilter : parts.filter (· ≠ []) = parts := by
      apply List.filter_eq_self.mpr
      intro x hx
      simpa using (h x hx).1
    rw [hfilter]
    apply List.map_congr_left
    intro x hx
    have hg := h x hx
    rw [if_neg hg.2.1, if_neg hg.2.2.1]

theorem collectStep_foldl_normals :
    ∀ (parts : List (List Nat)) (acc : List (List Nat)),
      List.foldl collectStep acc (parts.map .normal) = acc ++ parts := by
  intro parts
  induction parts with
  | nil => intro acc; simp
  | cons s rest ih =>
    intro acc
    rw [List.map_cons, List.foldl_cons]
    rw [collectStep, ih]
    simp

theorem mem_collectParts_normal :
    ∀ {p : List PathComp} {acc : List (List Nat)} {x : List Nat},
      x ∈ List.foldl collectStep acc p → x ∈ acc ∨ PathComp.normal x ∈ p := by
  intro p
  induction p with
  | nil => intro acc x h; exact Or.inl h
  | cons c rest ih =>
    intro acc x h
    rw [List.foldl_cons] at h
    rcases ih h with hacc | hrest
    · cases c with
      | curDir => exact Or.inl hacc
      | parentDir =>
        exact Or.inl (List.Sublist.subset (List.dropLast_sublist _) hacc)
      | normal s =>
        rcases List.mem_append.mp hacc with h1 | h2
        · exact Or.inl h1
        · simp only [List.mem_singleton] at h2
          subst h2
          exact Or.inr (List.mem_cons_self _ _)
      | otherComp => exact Or.inl hacc
    · exact Or.inr (List.mem_cons.mpr (Or.inr hrest))

/-- C7: normalization is idempotent on well-formed component paths —
re-parsing the normalized string and normalizing again returns the same
string — and the concrete path `a/./b/../c` normalizes to `a/c` (the `.`
component is dropped and `..` pops the last retained component). -/
theorem path_normalization_idempotent :
    (∀ p : List PathComp, (∀ c ∈ p, compGood c) →
        path_to_unix_string (strToPath (path_to_unix_string p)) = path_to_unix_string p) ∧
      path_to_unix_string (strToPath (strN "a/./b/../c")) = strN "a/c" := by
  constructor
  · intro p hGood
    have hparts : ∀ x ∈ collectParts p, goodName x := by
      intro x hx
      rcases @mem_collectParts_normal p [] x hx with h | h
      · cases h
      · exact hGood (.normal x) h
    unfold path_to_unix_string
    rw [strToPath_joinSlash hparts]
    unfold collectParts
    rw [collectStep_foldl_normals]
    rfl
  · decide

theorem path_normalization_idempotent_witness :
    (∀ c ∈ [PathComp.normal [97], PathComp.normal [99]], compGood c) ∧
      path_to_unix_string
          (strToPath (path_to_unix_string [PathComp.normal [97], PathComp.normal [99]])) =
        path_to_unix_string [PathComp.normal [97], PathComp.normal [99]] :=
  ⟨by decide,
    path_normalization_idempotent.1 [PathComp.normal [97], PathComp.normal [99]] (by decide)⟩

/-! ### Claim C1

The claim asserts digest invariance under any permutation of the
enumeration order, for every snapshot and every configuration.  The sort
(src/lib.rs lines 95-101) is a stable sort on the (possibly case-folded)
normalized path; when `case_sensitive_paths=false` two distinct files
whose paths coincide after lowercasing compare equal, the stable sort
preserves their enumeration order, and their records enter the outer
stream in enumeration order — so the digest depends on that order.  With
pairwise-distinct sort keys (always the case when
`case_sensitive_paths=true`, since normalized paths are unique), the claim
holds. -/

theorem globsOfIgnoreFiles_walk_irrel (cr : Option (List PathComp))
    (w w' : List WalkEntry) (di : Option (List Nat))
    (igf : List (List PathComp × List Nat)) :
    ∀ (l : List (List PathComp)) (b : List (List GlobTok)),
      globsOfIgnoreFiles ⟨cr, w, di, igf⟩ b l =
        globsOfIgnoreFiles ⟨cr, w', di, igf⟩ b l := by
  intro l
  induction l with
  | nil => intro b; rfl
  | cons f rest ih =>
    intro b
    rw [globsOfIgnoreFiles, globsOfIgnoreFiles]
    have hl : lookupFile ⟨cr, w, di, igf⟩ f = lookupFile ⟨cr, w', di, igf⟩ f := rfl
    rw [hl]
    cases lookupFile ⟨cr, w', di, igf⟩ f with
    | none => exact ih b
    | some txt =>
      dsimp only
      cases load_patterns_file txt b with
      | error e => rfl
      | ok b2 => exact ih b2

theorem build_globset_walk_irrel (root : List PathComp) (cr : Option (List PathComp))
    (w w' : List WalkEntry) (di : Option (List Nat))
    (igf : List (List PathComp × List Nat)) (opts : Options) :
    build_globset root ⟨cr, w, di, igf⟩ opts = build_globset root ⟨cr, w', di, igf⟩ opts := by
  unfold build_globset
  dsimp only
  simp only [globsOfIgnoreFiles_walk_irrel cr w w' di igf]

/-- C1 counterexample: with `case_sensitive_paths=false` and two candidate
files `A` and `a` (distinct contents) whose paths coincide after
lowercasing, reordering the enumeration changes the digest — the two walks
are permutations of each other, yet the results differ. -/
theorem perm_invariance_counterexample :
    List.Perm
        [WalkEntry.file [.normal [65]] (.ok [0]) none,
          WalkEntry.file [.normal [97]] (.ok [1]) none]
        [WalkEntry.file [.normal [97]] (.ok [1]) none,
          WalkEntry.file [.normal [65]] (.ok [0]) none] ∧
      get_dir_hash []
          ⟨none, [.file [.normal [65]] (.ok [0]) none,
            .file [.normal [97]] (.ok [1]) none], none, []⟩
          { defaultOptions with case_sensitive_paths := false } ≠
        get_dir_hash []
          ⟨none, [.file [.normal [97]] (.ok [1]) none,
            .file [.normal [65]] (.ok [0]) none], none, []⟩
          { defaultOptions with case_sensitive_paths := false } :=
  ⟨by decide, by decide⟩

/-- C1 as amended: for a fixed snapshot and configuration, the digest is
invariant under any permutation of the filesystem enumeration order,
provided the surviving candidates' sort keys (the normalized path, ASCII
lowercased when case-insensitive) are pairwise distinct — which always
holds when `case_sensitive_paths=true`, since normalized paths are
unique per snapshot. -/
theorem get_dir_hash_perm_invariant (root : List PathComp) (snap : Snapshot)
    (opts : Options) (w2 : List WalkEntry) (gs : GlobSet)
    (hGs : build_globset (canonOf root snap) snap opts = .ok gs)
    (hperm : snap.walk.Perm w2)
    (hkeys : (collectFiles (canonOf root snap) gs snap.walk).Pairwise
      (fun a b => sortKey opts.case_sensitive_paths a.rel ≠
        sortKey opts.case_sensitive_paths b.rel)) :
    get_dir_hash root snap opts = get_dir_hash root {snap with walk := w2} opts := by
  obtain ⟨cr, w1, di, igf⟩ := snap
  simp only [get_dir_hash]
  have hb2 : build_globset (canonOf root ⟨cr, w1, di, igf⟩) ⟨cr, w2, di, igf⟩ opts =
      Except.ok gs :=
    (build_globset_walk_irrel _ cr w2 w1 di igf opts).trans hGs
  have hcroot : canonOf root (⟨cr, w2, di, igf⟩ : Snapshot) =
      canonOf root ⟨cr, w1, di, igf⟩ := rfl
  rw [hGs, hcroot, hb2]
  dsimp only
  set cs := opts.case_sensitive_paths with hcs
  set rootC := canonOf root ⟨cr, w1, di, igf⟩ with hrootC
  have hcand : (collectFiles rootC gs w1).Perm (collectFiles rootC gs w2) :=
    hperm.filterMap _
  have hsorted : List.insertionSort (fleProp cs) (collectFiles rootC gs w1) =
      List.insertionSort (fleProp cs) (collectFiles rootC gs w2) := by
    apply perm_sorted_eq
    · exact (List.perm_insertionSort _ _).trans
        (hcand.trans (List.perm_insertionSort _ _).symm)
    · exact List.sorted_insertionSort _ _
    · exact List.sorted_insertionSort _ _
    · intro a ha b hb h1 h2
      have ha' : a ∈ collectFiles rootC gs w1 := (List.mem_insertionSort _).mp ha
      have hb' : b ∈ collectFiles rootC gs w1 := (List.mem_insertionSort _).mp hb
      exact pairwise_proj_injOn hkeys a ha' b hb' (fleProp_both_key_eq h1 h2)
  rw [hsorted]

theorem get_dir_hash_perm_invariant_witness :
    build_globset (canonOf [] ⟨none, [.file [.normal [97]] (.ok [0]) none,
          .file [.normal [98]] (.ok [1]) none], none, []⟩)
        ⟨none, [.file [.normal [97]] (.ok [0]) none,
          .file [.normal [98]] (.ok [1]) none], none, []⟩ defaultOptions = .ok [] ∧
      List.Perm
        (Snapshot.walk ⟨none, [.file [.normal [97]] (.ok [0]) none,
          .file [.normal [98]] (.ok [1]) none], none, []⟩)
        [.file [.normal [98]] (.ok [1]) none, .file [.normal [97]] (.ok [0]) none] ∧
      (collectFiles (canonOf [] ⟨none, [.file [.normal [97]] (.ok [0]) none,
            .file [.normal [98]] (.ok [1]) none], none, []⟩) []
          (Snapshot.walk ⟨none, [.file [.normal [97]] (.ok [0]) none,
            .file [.normal [98]] (.ok [1]) none], none, []⟩)).Pairwise
        (fun a b => sortKey defaultOptions.case_sensitive_paths a.rel ≠
          sortKey defaultOptions.case_sensitive_paths b.rel) ∧
      get_dir_hash [] ⟨none, [.file [.normal [97]] (.ok [0]) none,
          .file [.normal [98]] (.ok [1]) none], none, []⟩ defaultOptions =
        get_dir_hash []
          ⟨none, [.file [.normal [98]] (.ok [1]) none,
            .file [.normal [97]] (.ok [0]) none], none, []⟩ defaultOptions :=
  ⟨by decide, by decide, by decide,
    get_dir_hash_perm_invariant [] ⟨none, [.file [.normal [97]] (.ok [0]) none,
        .file [.normal [98]] (.ok [1]) none], none, []⟩ defaultOptions
      [.file [.normal [98]] (.ok [1]) none, .file [.normal [97]] (.ok [0]) none] []
      (by decide) (by decide) (by decide)⟩

/-! ### Claim C9: case folding

Two trees "differing only in filename casing with otherwise identical
contents" are modelled as two walks related entry-by-entry: same read
results and metadata, and normalized relative paths equal after the ASCII
case fold. -/

/-- Case-equivalence of two normalization results. -/
def relCaseEq : Option (List Nat) → Option (List Nat) → Prop
  | none, none => True
  | some a, some b => to_ascii_lowercase a = to_ascii_lowercase b
  | _, _ => False

instance : ∀ x y, Decidable (relCaseEq x y)
  | none, none => .isTrue trivial
  | some _, some _ => inferInstanceAs (Decidable (_ = _))
  | none, some _ => .isFalse id
  | some _, none => .isFalse id

/-- Entry-wise "differs only in filename casing": same outcome kind, same
content and metadata, case-equivalent normalized paths. -/
def entryCaseEq (root : List PathComp) : WalkEntry → WalkEntry → Prop
  | .err, .err => True
  | .notFile, .notFile => True
  | .file p r m, .file q r2 m2 =>
    r = r2 ∧ m = m2 ∧ relCaseEq (make_rel_unix root p) (make_rel_unix root q)
  | _, _ => False

instance (root : List PathComp) : ∀ x y, Decidable (entryCaseEq root x y)
  | .err, .err => .isTrue trivial
  | .err, .notFile => .isFalse id
  | .err, .file _ _ _ => .isFalse id
  | .notFile, .err => .isFalse id
  | .notFile, .notFile => .isTrue trivial
  | .notFile, .file _ _ _ => .isFalse id
  | .file _ _ _, .err => .isFalse id
  | .file _ _ _, .notFile => .isFalse id
  | .file p r m, .file q r2 m2 =>
    inferInstanceAs (Decidable (_ ∧ _ ∧ _))

instance decidableForallTwo {α β : Type _} {R : α → β → Prop}
    [∀ a b, Decidable (R a b)] :
    ∀ (l1 : List α) (l2 : List β), Decidable (List.Forall₂ R l1 l2)
  | [], [] => .isTrue .nil
  | [], _ :: _ => .isFalse (by intro h; cases h)
  | _ :: _, [] => .isFalse (by intro h; cases h)
  | a :: l1, b :: l2 =>
    match inferInstanceAs (Decidable (R a b)), decidableForallTwo l1 l2 with
    | .isTrue h1, .isTrue h2 => .isTrue (.cons h1 h2)
    | .isFalse h1, _ => .isFalse (by intro h; cases h; exact h1 (by assumption))
    | _, .isFalse h2 => .isFalse (by intro h; cases h; exact h2 (by assumption))

/-- Case-equivalence of two collected candidates. -/
def recCaseEq (f g : FileRec) : Prop :=
  to_ascii_lowercase f.rel = to_ascii_lowercase g.rel ∧
    f.readResult = g.readResult ∧ f.meta = g.meta

/-- The (path, content) projection of a candidate whose read succeeded. -/
def relContent (f : FileRec) : List Nat × List Nat :=
  (f.rel, match f.readResult with | .ok c => c | .error _ => [])

/-- Whether a candidate's content read succeeds. -/
def isOkRead (f : FileRec) : Bool :=
  match f.readResult with
  | .ok _ => true
  | .error _ => false

theorem isOkRead_exists {f : FileRec} (h : isOkRead f = true) :
    ∃ c, f.readResult = .ok c := by
  unfold isOkRead at h
  cases hr : f.readResult with
  | ok c => exact ⟨c, rfl⟩
  | error e => rw [hr] at h; cases h

theorem collect_caseEq {root : List PathComp} {gs : GlobSet} :
    ∀ {w1 w2 : List WalkEntry}, List.Forall₂ (entryCaseEq root) w1 w2 →
      (∀ rel ∈ walkRels root w1, isMatch gs rel = false) →
      (∀ rel ∈ walkRels root w2, isMatch gs rel = false) →
      List.Forall₂ recCaseEq (collectFiles root gs w1) (collectFiles root gs w2) := by
  intro w1 w2 hf
  induction hf with
  | nil => intro _ _; exact .nil
  | @cons a b t1 t2 he hrest ih =>
    intro h1 h2
    have ht1 : ∀ rel ∈ walkRels root t1, isMatch gs rel = false :=
      fun rel hr => h1 rel (walkRels_mem_tail hr)
    have ht2 : ∀ rel ∈ walkRels root t2, isMatch gs rel = false :=
      fun rel hr => h2 rel (walkRels_mem_tail hr)
    have ihr := ih ht1 ht2
    cases a with
    | err =>
      cases b with
      | err =>
        simpa [collectFiles, List.filterMap_cons, candOfEntry] using ihr
      | notFile => exact absurd he id
      | file q r2 m2 => exact absurd he id
    | notFile =>
      cases b with
      | notFile =>
        simpa [collectFiles, List.filterMap_cons, candOfEntry] using ihr
      | err => exact absurd he id
      | file q r2 m2 => exact absurd he id
    | file p r m =>
      cases b with
      | err => exact absurd he id
      | notFile => exact absurd he id
      | file q r2 m2 =>
        obtain ⟨hr, hm, hrel⟩ := he
        simp only [collectFiles, List.filterMap_cons, candOfEntry]
        cases hp : make_rel_unix root p with
        | none =>
          cases hq : make_rel_unix root q with
          | none => exact ihr
          | some rel2 =>
            rw [hp, hq] at hrel
            exact absurd hrel id
        | some rel1 =>
          cases hq : make_rel_unix root q with
          | none =>
            rw [hp, hq] at hrel
            exact absurd hrel id
          | some rel2 =>
            rw [hp, hq] at hrel
            have hm1 : isMatch gs rel1 = false := by
              apply h1
              simp [walkRels, List.filterMap_cons, hp]
            have hm2 : isMatch gs rel2 = false := by
              apply h2
              simp [walkRels, List.filterMap_cons, hq]
            simp only [hm1, hm2, Bool.false_eq_true, if_false]
            exact .cons ⟨hrel, hr, hm⟩ ihr

theorem fleProp_false_congr {x y a b : FileRec}
    (hxy : to_ascii_lowercase x.rel = to_ascii_lowercase y.rel)
    (hab : to_ascii_lowercase a.rel = to_ascii_lowercase b.rel) :
    fleProp false x a ↔ fleProp false y b := by
  simp only [fleProp, sortCmp, cmp_case_insensitive, if_neg Bool.false_ne_true, hxy, hab]

theorem orderedInsert_caseEq :
    ∀ {acc1 acc2 : List FileRec} {x y : FileRec},
      List.Forall₂ recCaseEq acc1 acc2 → recCaseEq x y →
      List.Forall₂ recCaseEq (List.orderedInsert (fleProp false) x acc1)
        (List.orderedInsert (fleProp false) y acc2) := by
  intro acc1 acc2 x y hf
  induction hf with
  | nil => intro hxy; exact .cons hxy .nil
  | @cons a b t1 t2 hab hrest ih =>
    intro hxy
    rw [List.orderedInsert, List.orderedInsert]
    by_cases h : fleProp false x a
    · have h' : fleProp false y b := (fleProp_false_congr hxy.1 hab.1).mp h
      rw [if_pos h, if_pos h']
      exact .cons hxy (.cons hab hrest)
    · have h' : ¬ fleProp false y b :=
        fun hc => h ((fleProp_false_congr hxy.1 hab.1).mpr hc)
      rw [if_neg h, if_neg h']
      exact .cons hab (ih hxy)

theorem insertionSort_caseEq :
    ∀ {l1 l2 : List FileRec}, List.Forall₂ recCaseEq l1 l2 →
      List.Forall₂ recCaseEq (List.insertionSort (fleProp false) l1)
        (List.insertionSort (fleProp false) l2) := by
  intro l1 l2 hf
  induction hf with
  | nil => exact .nil
  | @cons x y t1 t2 hxy hrest ih =>
    rw [List.insertionSort, List.insertionSort]
    exact orderedInsert_caseEq ih hxy

theorem hashFiles_caseEq {opts : Options} (hcs : opts.case_sensitive_paths = false) :
    ∀ {l1 l2 : List FileRec}, List.Forall₂ recCaseEq l1 l2 →
      ∀ acc, hashFiles opts acc l1 = hashFiles opts acc l2 := by
  intro l1 l2 hf
  induction hf with
  | nil => intro acc; rfl
  | @cons f g t1 t2 hfg hrest ih =>
    intro acc
    rw [hashFiles, hashFiles, ← hfg.2.1]
    cases f.readResult with
    | error e => rfl
    | ok c =>
      dsimp only
      have hrec : fileRecordItems opts f.rel c f.meta =
          fileRecordItems opts g.rel c g.meta := by
        have hlow : to_lowercase f.rel = to_lowercase g.rel := hfg.1
        simp only [fileRecordItems, hcs, if_neg Bool.false_ne_true, hlow, hfg.2.2]
      rw [hrec, ih]

/-- The outer-stream block of one (path, content) pair in case-sensitive
mode without metadata. -/
def relContentBlock (rc : List Nat × List Nat) : List HashItem :=
  HashItem.byte 70 :: HashItem.byte 0 ::
    (byteItems rc.1 ++ HashItem.byte 0 :: HashItem.inner rc.2 :: [])

theorem byteItems_append_inj :
    ∀ {r1 r2 c1 c2 : List Nat} {s1 s2 : List HashItem},
      ¬ 0 ∈ r1 → ¬ 0 ∈ r2 →
      byteItems r1 ++ HashItem.byte 0 :: HashItem.inner c1 :: s1 =
        byteItems r2 ++ HashItem.byte 0 :: HashItem.inner c2 :: s2 →
      r1 = r2 ∧ c1 = c2 ∧ s1 = s2 := by
  intro r1
  induction r1 with
  | nil =>
    intro r2 c1 c2 s1 s2 _ h2 heq
    cases r2 with
    | nil =>
      simp only [byteItems, List.map_nil, List.nil_append, List.cons.injEq,
        HashItem.inner.injEq] at heq
      exact ⟨rfl, heq.2.1, heq.2.2⟩
    | cons x r2' =>
      simp only [byteItems, List.map_nil, List.map_cons, List.nil_append,
        List.cons_append, List.cons.injEq, HashItem.byte.injEq] at heq
      exact absurd (heq.1 ▸ List.mem_cons_self x r2') h2
  | cons y r1' ih =>
    intro r2 c1 c2 s1 s2 h1 h2 heq
    cases r2 with
    | nil =>
      simp only [byteItems, List.map_nil, List.map_cons, List.nil_append,
        List.cons_append, List.cons.injEq, HashItem.byte.injEq] at heq
      exact absurd (heq.1.symm ▸ List.mem_cons_self y r1') h1
    | cons x r2' =>
      simp only [byteItems, List.map_cons, List.cons_append, List.cons.injEq,
        HashItem.byte.injEq] at heq
      obtain ⟨hyx, hrest⟩ := heq
      have h1' : ¬ 0 ∈ r1' := fun hm => h1 (List.mem_cons.mpr (Or.inr hm))
      have h2' : ¬ 0 ∈ r2' := fun hm => h2 (List.mem_cons.mpr (Or.inr hm))
      obtain ⟨hr, hc, hs⟩ := ih h1' h2' hrest
      exact ⟨by rw [hyx, hr], hc, hs⟩

theorem flatten_blocks_inj :
    ∀ {l1 l2 : List (List Nat × List Nat)},
      (∀ rc ∈ l1, ¬ 0 ∈ rc.1) → (∀ rc ∈ l2, ¬ 0 ∈ rc.1) →
      (l1.map relContentBlock).flatten = (l2.map relContentBlock).flatten → l1 = l2 := by
  intro l1
  induction l1 with
  | nil =>
    intro l2 _ _ h
    cases l2 with
    | nil => rfl
    | cons rc rest => simp [relContentBlock] at h
  | cons rc1 rest1 ih =>
    intro l2 h1 h2 h
    cases l2 with
    | nil => simp [relContentBlock] at h
    | cons rc2 rest2 =>
      simp only [List.map_cons, List.flatten_cons, relContentBlock,
        List.cons_append, List.append_assoc, List.cons.injEq] at h
      obtain ⟨-, -, heq⟩ := h
      simp only [List.nil_append] at heq
      have hn1 : ¬ 0 ∈ rc1.1 := h1 rc1 (List.mem_cons_self _ _)
      have hn2 : ¬ 0 ∈ rc2.1 := h2 rc2 (List.mem_cons_self _ _)
      obtain ⟨hr, hc, hs⟩ := byteItems_append_inj hn1 hn2 heq
      have hrc : rc1 = rc2 := Prod.ext hr hc
      have hrest : rest1 = rest2 :=
        ih (fun rc hm => h1 rc (List.mem_cons.mpr (Or.inr hm)))
          (fun rc hm => h2 rc (List.mem_cons.mpr (Or.inr hm))) (by simpa using hs)
      rw [hrc, hrest]

theorem recordOf_eq_block {opts : Options} (hcs : opts.case_sensitive_paths = true)
    (hmeta : opts.include_metadata = false) {f : FileRec}
    (hok : isOkRead f = true) :
    recordOf opts f = relContentBlock (relContent f) := by
  obtain ⟨c, hc⟩ := isOkRead_exists hok
  simp only [recordOf, hc, fileRecordItems, hcs, hmeta, relContentBlock, relContent,
    if_pos, byteItems, List.map_cons, List.map_nil, Bool.false_eq_true, if_false,
    List.cons_append, List.nil_append, List.append_nil, List.append_assoc]

/-- C9 counterexample: with `case_sensitive_paths=false` and the compiled
ignore pattern `A`, the tree containing only `A` (ignored) and its
case-variant tree containing only `a` (not ignored) — identical contents —
produce different digests, refuting the claim's case-insensitive equality
as stated for every configuration. -/
theorem case_folding_counterexample :
    List.Forall₂
        (entryCaseEq (canonOf [] ⟨none, [.file [.normal [65]] (.ok [5]) none], none, []⟩))
        [.file [.normal [65]] (.ok [5]) none] [.file [.normal [97]] (.ok [5]) none] ∧
      get_dir_hash [] ⟨none, [.file [.normal [65]] (.ok [5]) none], none, []⟩
          { defaultOptions with
            case_sensitive_paths := false
            ignore_patterns := [strN "A"] } ≠
        get_dir_hash [] ⟨none, [.file [.normal [97]] (.ok [5]) none], none, []⟩
          { defaultOptions with
            case_sensitive_paths := false
            ignore_patterns := [strN "A"] } :=
  ⟨by decide, by decide⟩

/-- C9 as amended.  Part 1: with `case_sensitive_paths=false`, two walks
related entry-by-entry by `entryCaseEq` (same contents and metadata, paths
equal after ASCII lowercasing) produce the same result, provided the
compiled patterns match none of the walked paths of either tree.  Part 2:
with `case_sensitive_paths=true` and `include_metadata=false`, two such
case-variant trees produce different digests, provided their (path,
content) candidate multisets genuinely differ, all candidate paths are
NUL-free, and every selected file's read succeeds. -/
theorem case_folding :
    (∀ (root : List PathComp) (snap : Snapshot) (opts : Options)
        (w2 : List WalkEntry) (gs : GlobSet),
        opts.case_sensitive_paths = false →
        build_globset (canonOf root snap) snap opts = .ok gs →
        List.Forall₂ (entryCaseEq (canonOf root snap)) snap.walk w2 →
        (∀ rel ∈ walkRels (canonOf root snap) snap.walk, isMatch gs rel = false) →
        (∀ rel ∈ walkRels (canonOf root snap) w2, isMatch gs rel = false) →
        get_dir_hash root snap opts = get_dir_hash root {snap with walk := w2} opts) ∧
      (∀ (root : List PathComp) (snap : Snapshot) (opts : Options)
        (w2 : List WalkEntry) (gs : GlobSet),
        opts.case_sensitive_paths = true →
        opts.include_metadata = false →
        build_globset (canonOf root snap) snap opts = .ok gs →
        List.Forall₂ (entryCaseEq (canonOf root snap)) snap.walk w2 →
        (∀ f ∈ collectFiles (canonOf root snap) gs snap.walk, isOkRead f = true) →
        (∀ f ∈ collectFiles (canonOf root snap) gs w2, isOkRead f = true) →
        (∀ f ∈ collectFiles (canonOf root snap) gs snap.walk, ¬ 0 ∈ f.rel) →
        (∀ f ∈ collectFiles (canonOf root snap) gs w2, ¬ 0 ∈ f.rel) →
        ¬ ((collectFiles (canonOf root snap) gs snap.walk).map relContent).Perm
            ((collectFiles (canonOf root snap) gs w2).map relContent) →
        get_dir_hash root snap opts ≠ get_dir_hash root {snap with walk := w2} opts) := by
  constructor
  · intro root snap opts w2 gs hcs hGs hRel hm1 hm2
    obtain ⟨cr, w1, di, igf⟩ := snap
    simp only [get_dir_hash]
    have hb2 : build_globset (canonOf root ⟨cr, w1, di, igf⟩) ⟨cr, w2, di, igf⟩ opts =
        Except.ok gs :=
      (build_globset_walk_irrel _ cr w2 w1 di igf opts).trans hGs
    have hcroot : canonOf root (⟨cr, w2, di, igf⟩ : Snapshot) =
        canonOf root ⟨cr, w1, di, igf⟩ := rfl
    rw [hGs, hcroot, hb2]
    dsimp only
    rw [hcs]
    exact hashFiles_caseEq hcs (insertionSort_caseEq (collect_caseEq hRel hm1 hm2)) _
  · intro root snap opts w2 gs hcs hmeta hGs hRel hok1 hok2 hnul1 hnul2 hne
    obtain ⟨cr, w1, di, igf⟩ := snap
    simp only [get_dir_hash]
    have hb2 : build_globset (canonOf root ⟨cr, w1, di, igf⟩) ⟨cr, w2, di, igf⟩ opts =
        Except.ok gs :=
      (build_globset_walk_irrel _ cr w2 w1 di igf opts).trans hGs
    have hcroot : canonOf root (⟨cr, w2, di, igf⟩ : Snapshot) =
        canonOf root ⟨cr, w1, di, igf⟩ := rfl
    rw [hGs, hcroot, hb2]
    dsimp only
    set rootC := canonOf root ⟨cr, w1, di, igf⟩ with hrootC
    set c1 := collectFiles rootC gs w1 with hc1
    set c2 := collectFiles rootC gs w2 with hc2
    set s1 := List.insertionSort (fleProp opts.case_sensitive_paths) c1 with hs1
    set s2 := List.insertionSort (fleProp opts.case_sensitive_paths) c2 with hs2
    intro heq
    have hok1' : ∀ f ∈ s1, ∃ c, f.readResult = .ok c := fun f hf =>
      isOkRead_exists (hok1 f ((List.mem_insertionSort _).mp hf))
    have hok2' : ∀ f ∈ s2, ∃ c, f.readResult = .ok c := fun f hf =>
      isOkRead_exists (hok2 f ((List.mem_insertionSort _).mp hf))
    rw [hashFiles_ok_of_reads hok1', hashFiles_ok_of_reads hok2'] at heq
    simp only [Except.ok.injEq] at heq
    have hflat := List.append_cancel_left heq
    have hmap1 : s1.map (recordOf opts) = (s1.map relContent).map relContentBlock := by
      rw [List.map_map]
      apply List.map_congr_left
      intro f hf
      exact recordOf_eq_block hcs hmeta (hok1 f ((List.mem_insertionSort _).mp hf))
    have hmap2 : s2.map (recordOf opts) = (s2.map relContent).map relContentBlock := by
      rw [List.map_map]
      apply List.map_congr_left
      intro f hf
      exact recordOf_eq_block hcs hmeta (hok2 f ((List.mem_insertionSort _).mp hf))
    rw [hmap1, hmap2] at hflat
    have hnul1' : ∀ rc ∈ s1.map relContent, ¬ 0 ∈ rc.1 := by
      intro rc hm
      obtain ⟨f, hf, rfl⟩ := List.mem_map.mp hm
      exact hnul1 f ((List.mem_insertionSort _).mp hf)
    have hnul2' : ∀ rc ∈ s2.map relContent, ¬ 0 ∈ rc.1 := by
      intro rc hm
      obtain ⟨f, hf, rfl⟩ := List.mem_map.mp hm
      exact hnul2 f ((List.mem_insertionSort _).mp hf)
    have hlists := flatten_blocks_inj hnul1' hnul2' hflat
    apply hne
    have p1 : (c1.map relContent).Perm (s1.map relContent) :=
      ((List.perm_insertionSort _ _).map _).symm
    rw [hlists] at p1
    exact p1.trans ((List.perm_insertionSort _ _).map _)

theorem case_folding_witness :
    ((false : Bool) = false ∧
      build_globset (canonOf [] ⟨none, [.file [.normal [65]] (.ok [7]) none], none, []⟩)
        ⟨none, [.file [.normal [65]] (.ok [7]) none], none, []⟩
        { defaultOptions with case_sensitive_paths := false } = .ok [] ∧
      get_dir_hash [] ⟨none, [.file [.normal [65]] (.ok [7]) none], none, []⟩
          { defaultOptions with case_sensitive_paths := false } =
        get_dir_hash []
          { Snapshot.mk none [.file [.normal [65]] (.ok [7]) none] none [] with
            walk := [.file [.normal [97]] (.ok [7]) none] }
          { defaultOptions with case_sensitive_paths := false }) ∧
      get_dir_hash [] ⟨none, [.file [.normal [65]] (.ok [1]) none,
          .file [.normal [97]] (.ok [2]) none], none, []⟩ defaultOptions ≠
        get_dir_hash []
          { Snapshot.mk none
              [.file [.normal [65]] (.ok [1]) none, .file [.normal [97]] (.ok [2]) none]
              none [] with
            walk := [.file [.normal [97]] (.ok [1]) none,
              .file [.normal [65]] (.ok [2]) none] }
          defaultOptions :=
  ⟨⟨rfl, by decide,
    case_folding.1 [] ⟨none, [.file [.normal [65]] (.ok [7]) none], none, []⟩
      { defaultOptions with case_sensitive_paths := false }
      [.file [.normal [97]] (.ok [7]) none] [] (by decide) (by decide) (by decide)
      (by decide) (by decide)⟩,
    case_folding.2 [] ⟨none, [.file [.normal [65]] (.ok [1]) none,
        .file [.normal [97]] (.ok [2]) none], none, []⟩ defaultOptions
      [.file [.normal [97]] (.ok [1]) none, .file [.normal [65]] (.ok [2]) none] []
      (by decide) (by decide) (by decide) (by decide) (by decide) (by decide)
      (by decide) (by decide) (by decide)⟩

end GetDirHash
